import Mathlib

/-!
Shallow embedding of the student result portal's core logic
(`src/script.js`): the hand-rolled CSV parser, record construction,
column-role resolution, the numeric-aware unique/sort pipeline and the
cascade filter/lookup functions, together with theorems settling the
specification claims about them.

Strings are modelled as Lean `String` (a wrapper around `List Char`);
the parser's field accumulator is kept as a `List Char` and wrapped with
`String.mk` exactly where the JavaScript code pushes the field.
-/

namespace StudentPortal

/-- The end-of-row emission of `parseCSV` (`src/script.js` lines 73-78 and
88-91): the pending row is flushed only when the current field is non-empty
or the row already has cells (this suppresses fully blank lines). -/
def flushRow (out : List (List String)) (row : List String) (field : List Char) : List (List String) :=
  if field ≠ [] ∨ row ≠ [] then out ++ [row ++ [String.mk field]] else out

/-- Embedding of `parseCSV`'s character loop (`src/script.js` lines 51-91).
Arguments mirror the loop state: remaining input, `out`, `row`, `field`
(as a character list) and the `inQuotes` flag.  The JS code resets `row`
and `field` only inside the emission conditional, but when that conditional
is false they are already empty, so the reset here is unconditional. -/
def parseCSVAux : List Char → List (List String) → List String → List Char → Bool → List (List String)
  | [], out, row, field, _ =>
      flushRow out row field
  | '"' :: '"' :: rest, out, row, field, true =>
      parseCSVAux rest out row (field ++ ['"']) true
  | '"' :: rest, out, row, field, inQuotes =>
      parseCSVAux rest out row field (!inQuotes)
  | '\r' :: '\n' :: rest, out, row, field, false =>
      parseCSVAux rest (flushRow out row field) [] [] false
  | c :: rest, out, row, field, false =>
      if c = ',' ∨ c = '\t' then
        parseCSVAux rest out (row ++ [String.mk field]) [] false
      else if c = '\r' ∨ c = '\n' then
        parseCSVAux rest (flushRow out row field) [] [] false
      else
        parseCSVAux rest out row (field ++ [c]) false
  | c :: rest, out, row, field, true =>
      parseCSVAux rest out row (field ++ [c]) true

/-- Embedding of `parseCSV` (`src/script.js` lines 45-93). -/
def parseCSV (text : String) : List (List String) :=
  parseCSVAux text.data [] [] [] false

/-- Removal of leading and trailing whitespace from a character list
(`String.prototype.trim`, modelled over ASCII whitespace). -/
def trimChars (l : List Char) : List Char :=
  ((l.dropWhile Char.isWhitespace).reverse.dropWhile Char.isWhitespace).reverse

/-- Embedding of `normalize` (`src/script.js` lines 108-110):
`String(s || "").trim()`.  For a string argument `s || ""` is `s` itself
(the empty string maps to the empty string either way), so this is trim. -/
def normalize (s : String) : String := String.mk (trimChars s.data)

/-- `String.prototype.toLowerCase`, modelled over ASCII letters. -/
def strToLower (s : String) : String := String.mk (s.data.map Char.toLower)

/-- Embedding of `lower` (`src/script.js` lines 111-113). -/
def lower (s : String) : String := strToLower (normalize s)

/-- A parsed data row as the JS code builds it: the header/value pairs in
header order.  Lookups follow JavaScript object semantics (last write to a
name wins), see `objGetOpt`. -/
abbrev Record := List (String × String)

/-- Reading `obj[name]` from a record built by successive assignments in
pair order: the last assignment to `name` wins; absent names give `none`
(JS `undefined`). -/
def objGetOpt (rec : Record) (name : String) : Option String :=
  rec.foldl (fun acc p => if p.1 = name then some p.2 else acc) none

/-- `r[name]` coalesced to the empty string, as every consumer of a record
in the script does (`?? ""` or `normalize`, which sends `undefined` to `""`). -/
def getStr (rec : Record) (name : String) : String :=
  (objGetOpt rec name).getD ""

/-- The `head.forEach((h, i) => { obj[h] = r[i] ?? ""; })` loop of
`toObjects` (`src/script.js` line 102), with `i` the running index. -/
def buildRecordAux (r : List String) : Nat → List String → Record
  | _, [] => []
  | i, h :: t => (h, r.getD i "") :: buildRecordAux r (i + 1) t

/-- The record built for data row `r` under header row `head`. -/
def buildRecord (head r : List String) : Record :=
  buildRecordAux r 0 head

/-- Embedding of `toObjects` (`src/script.js` lines 95-106). -/
def toObjects (matrix : List (List String)) : List String × List Record :=
  (matrix.headD [], (matrix.drop 1).map (buildRecord (matrix.headD [])))

/-- `Array.prototype.indexOf`: index of the first occurrence. -/
def indexOfStr : List String → String → Option Nat
  | [], _ => none
  | h :: t, x => if h = x then some 0 else (indexOfStr t x).map (· + 1)

/-- `sub` occurs as a contiguous run inside `s`. -/
def listContains (s sub : List Char) : Bool :=
  if sub.isPrefixOf s then true
  else
    match s with
    | [] => false
    | _ :: t => listContains t sub

/-- `String.prototype.includes`: substring containment. -/
def includes (s sub : String) : Bool :=
  listContains s.data sub.data

/-- JavaScript truthiness of `found[key]`: `null` and `""` are falsy. -/
def truthy : Option String → Bool
  | none => false
  | some s => s != ""

/-- The alias loop of `resolveColumns` (`src/script.js` lines 121-124):
for each candidate in order, look the candidate itself up among the
lower-cased-trimmed headers; on the first hit bind the original header
text and stop. -/
def tryAliases (headers lowerHeaders : List String) : List String → Option String
  | [] => none
  | cand :: rest =>
    match indexOfStr lowerHeaders cand with
    | some i => some (headers.getD i "")
    | none => tryAliases headers lowerHeaders rest

/-- The alias walk as the specification words it (§4.3 step 2): the alias is
lower-cased and trimmed before being compared with the lower-cased-trimmed
headers.  Present only to compare the spec's description against the
source's `tryAliases`. -/
def specTryAliases (headers lowerHeaders : List String) : List String → Option String
  | [] => none
  | cand :: rest =>
    match indexOfStr lowerHeaders (lower cand) with
    | some i => some (headers.getD i "")
    | none => specTryAliases headers lowerHeaders rest

/-- Resolution of one role (the body of the `for (const key ...)` loop of
`resolveColumns`, `src/script.js` lines 119-130): the alias walk, then —
if the bound value is falsy — the substring fallback
`headers.find(h => lower(h).includes(key))`, assigned only when truthy. -/
def resolveRole (headers : List String) (aliases : List String) (key : String) : Option String :=
  let lowerHeaders := headers.map lower
  let afterAlias := tryAliases headers lowerHeaders aliases
  if truthy afterAlias then afterAlias
  else
    match headers.find? (fun h => includes (lower h) key) with
    | some m => if m != "" then some m else afterAlias
    | none => afterAlias

/-- Per-role alias lists (`COLUMN_ALIASES`' shape). -/
structure AliasConfig where
  «class» : List String
  division : List String
  roll : List String

/-- `COLUMN_ALIASES` (`src/script.js` lines 16-20). -/
def COLUMN_ALIASES : AliasConfig :=
  { «class» := ["class", "std", "grade"]
    division := ["division", "div", "section"]
    roll := ["roll", "rollno", "roll no", "roll number", "roll_number"] }

/-- The `found` object returned by `resolveColumns`. -/
structure ResolvedColumns where
  «class» : Option String
  division : Option String
  roll : Option String
deriving DecidableEq

/-- Embedding of `resolveColumns` (`src/script.js` lines 115-132). -/
def resolveColumns (headers : List String) (aliases : AliasConfig) : ResolvedColumns :=
  { «class» := resolveRole headers aliases.«class» "class"
    division := resolveRole headers aliases.division "division"
    roll := resolveRole headers aliases.roll "roll" }

/-- Last index at which `name` occurs in a list, if any. -/
def lastIdxOf? (name : String) : List String → Option Nat
  | [] => none
  | h :: t =>
    match lastIdxOf? name t with
    | some j => some (j + 1)
    | none => if h = name then some 0 else none

/-- Three-way comparison on `Nat` (sign of a subtraction in JS). -/
def natOrd (a b : Nat) : Ordering :=
  if a < b then .lt else if a = b then .eq else .gt

/-- Three-way comparison on `Int` (sign of `na - nb` in JS). -/
def intOrd (a b : Int) : Ordering :=
  if a < b then .lt else if a = b then .eq else .gt

/-- Value of a digit run. -/
def digitsVal (l : List Char) : Nat :=
  l.foldl (fun n c => n * 10 + (c.toNat - 48)) 0

/-- Exponent suffix of a JS decimal numeric literal: optional sign then a
non-empty digit run consuming the rest of the input. -/
def readExp (l : List Char) : Option Int :=
  let sign : Int := match l with | '-' :: _ => -1 | _ => 1
  let l' := match l with | '+' :: r => r | '-' :: r => r | r => r
  if l'.takeWhile Char.isDigit = [] ∨ l'.dropWhile Char.isDigit ≠ [] then none
  else some (sign * Int.ofNat (digitsVal (l'.takeWhile Char.isDigit)))

/-- Unsigned part of a JS decimal numeric literal, as a pair
(mantissa, base-10 exponent): digits, optional fraction, optional exponent. -/
def jsNumberCore (l : List Char) : Option (Int × Int) :=
  let ds := l.takeWhile Char.isDigit
  let r1 := l.dropWhile Char.isDigit
  let fds := match r1 with | '.' :: r => r.takeWhile Char.isDigit | _ => []
  let r2 := match r1 with | '.' :: r => r.dropWhile Char.isDigit | _ => r1
  if ds = [] ∧ fds = [] then none
  else
    let mant : Int := Int.ofNat (digitsVal ds * 10 ^ fds.length + digitsVal fds)
    let fexp : Int := -(Int.ofNat fds.length)
    match r2 with
    | [] => some (mant, fexp)
    | 'e' :: r3 => (readExp r3).map (fun e => (mant, fexp + e))
    | 'E' :: r3 => (readExp r3).map (fun e => (mant, fexp + e))
    | _ => none

/-- Model of the JavaScript `Number` conversion used by `uniqueSorted`'s
comparator, on already-trimmed strings, restricted to decimal numeric
literals (optional sign, digits, fraction, exponent); `none` plays the role
of `NaN`.  The value denoted by `some (m, e)` is `m * 10 ^ e`.
Hexadecimal/binary/octal literals and `Infinity` are outside the model. -/
def jsNumber (s : String) : Option (Int × Int) :=
  match s.data with
  | [] => some (0, 0)
  | '-' :: r => (jsNumberCore r).map (fun p => (-p.1, p.2))
  | '+' :: r => jsNumberCore r
  | l => jsNumberCore l

/-- Numeric comparison of two (mantissa, exponent) pairs: bring both to the
smaller exponent and compare the scaled integers. -/
def numOrd (x y : Int × Int) : Ordering :=
  let e := min x.2 y.2
  intOrd (x.1 * 10 ^ (x.2 - e).toNat) (y.1 * 10 ^ (y.2 - e).toNat)

/-- Tokens of a natural-sort comparison: a digit run (value and length) or a
run of non-digit characters. -/
inductive NatToken where
  | num : Nat → Nat → NatToken
  | str : List Char → NatToken
deriving DecidableEq

/-- Split a character list into maximal digit runs (taken by value) and
non-digit runs. -/
def tokenize : List Char → List NatToken
  | [] => []
  | c :: cs =>
    let ts := tokenize cs
    if c.isDigit then
      match ts with
      | NatToken.num v k :: ts' => NatToken.num ((c.toNat - 48) * 10 ^ k + v) (k + 1) :: ts'
      | _ => NatToken.num (c.toNat - 48) 1 :: ts
    else
      match ts with
      | NatToken.str l :: ts' => NatToken.str (c :: l) :: ts'
      | _ => NatToken.str [c] :: ts

/-- Code-point comparison of character runs. -/
def charListCmp : List Char → List Char → Ordering
  | [], [] => .eq
  | [], _ :: _ => .lt
  | _ :: _, [] => .gt
  | a :: as, b :: bs =>
    match natOrd a.toNat b.toNat with
    | .eq => charListCmp as bs
    | o => o

/-- Comparison of two natural-sort tokens: digit runs compare by value and
sort before non-digit runs. -/
def tokCmp : NatToken → NatToken → Ordering
  | .num v _, .num w _ => natOrd v w
  | .num _ _, .str _ => .lt
  | .str _, .num _ _ => .gt
  | .str a, .str b => charListCmp a b

/-- Lexicographic comparison of token lists. -/
def tokensCmp : List NatToken → List NatToken → Ordering
  | [], [] => .eq
  | [], _ :: _ => .lt
  | _ :: _, [] => .gt
  | a :: as, b :: bs =>
    match tokCmp a b with
    | .eq => tokensCmp as bs
    | o => o

/-- Model of `a.localeCompare(b, undefined, {numeric: true, sensitivity:
"base"})`: case-insensitive natural-sort comparison (digit substrings
compare by numeric value). -/
def localeCmp (a b : String) : Ordering :=
  tokensCmp (tokenize (strToLower a).data) (tokenize (strToLower b).data)

/-- The comparator passed to `.sort` in `uniqueSorted` (`src/script.js`
lines 135-140): numeric when both sides convert to numbers, natural-sort
string comparison otherwise. -/
def cmpJS (a b : String) : Ordering :=
  match jsNumber a, jsNumber b with
  | some x, some y => numOrd x y
  | _, _ => localeCmp a b

/-- `new Set(...)` iteration order: first occurrence of each element. -/
def jsSetDedupAux (seen : List String) : List String → List String
  | [] => []
  | x :: xs =>
    if x ∈ seen then jsSetDedupAux seen xs
    else x :: jsSetDedupAux (x :: seen) xs

/-- De-duplication keeping first occurrences, as `[...new Set(l)]`. -/
def jsSetDedup (l : List String) : List String := jsSetDedupAux [] l

/-- Insertion into a sorted list: before the first element the new element
does not compare greater than (a stable placement for the comparator). -/
def insertSorted (a : String) : List String → List String
  | [] => [a]
  | b :: l => if cmpJS a b ≠ Ordering.gt then a :: b :: l else b :: insertSorted a l

/-- Stable comparison sort with the `uniqueSorted` comparator. -/
def sortJS : List String → List String
  | [] => []
  | a :: l => insertSorted a (sortJS l)

/-- Embedding of `uniqueSorted` (`src/script.js` lines 134-141):
trim every value, drop the (falsy) empty strings, de-duplicate through a
`Set`, and sort with the numeric-friendly comparator. -/
def uniqueSorted (values : List String) : List String :=
  sortJS (jsSetDedup ((values.map normalize).filter (fun v => v != "")))

/-- The row filter and division projection of `onClassChange`
(`src/script.js` lines 212-213), as the spec's `divisionValues`. -/
def divisionValues (rows : List Record) (cCol dCol cls : String) : List String :=
  uniqueSorted ((rows.filter (fun r => normalize (getStr r cCol) == normalize cls)).map
    (fun r => getStr r dCol))

/-- The row filter and roll projection of `onDivisionChange`
(`src/script.js` lines 229-233), as the spec's `rollValues`. -/
def rollValues (rows : List Record) (cCol dCol rCol cls dv : String) : List String :=
  uniqueSorted ((rows.filter (fun r =>
    normalize (getStr r cCol) == normalize cls &&
    normalize (getStr r dCol) == normalize dv)).map
    (fun r => getStr r rCol))

/-- The predicate of the `rows.find` call in `onRollChange`
(`src/script.js` lines 248-252). -/
def matchesSelection (cCol dCol rCol cls dv rl : String) (r : Record) : Bool :=
  normalize (getStr r cCol) == normalize cls &&
  normalize (getStr r dCol) == normalize dv &&
  normalize (getStr r rCol) == normalize rl

/-- The record lookup of `onRollChange` (`src/script.js` lines 248-252), as
the spec's `findRecord`. -/
def findRecord (rows : List Record) (cCol dCol rCol cls dv rl : String) : Option Record :=
  rows.find? (matchesSelection cCol dCol rCol cls dv rl)

/-- Modelled from the spec: the repository contains no serializer; §8's
round-trip property speaks of the comma-and-newline serialization of a
matrix, i.e. cells joined by commas and rows joined by line feeds. -/
def serialize (matrix : List (List String)) : String :=
  String.mk (List.intercalate ['\n'] (matrix.map (fun r => List.intercalate [','] (r.map String.data))))

/-- The numeric value denoted by a parsed `(mantissa, exponent)` pair, as a
rational. -/
def numValQ (x : Int × Int) : ℚ :=
  if 0 ≤ x.2 then (x.1 : ℚ) * 10 ^ x.2.toNat else (x.1 : ℚ) / 10 ^ (-x.2).toNat

/-- `a` denotes a number no larger than the number `b` denotes (vacuously
true when either side does not parse as a number). -/
def numLE (a b : String) : Prop :=
  ∀ x y, jsNumber a = some x → jsNumber b = some y → numValQ x ≤ numValQ y

/-- A character that is neither a delimiter, a quote nor a line break. -/
def plainChar (c : Char) : Prop :=
  c ≠ ',' ∧ c ≠ '\t' ∧ c ≠ '"' ∧ c ≠ '\r' ∧ c ≠ '\n'

instance : DecidablePred plainChar := fun c => by
  unfold plainChar
  infer_instance


/-! ## Step lemmas for the CSV parser loop -/

theorem step_comma (rest : List Char) (out : List (List String)) (row : List String)
    (field : List Char) :
    parseCSVAux (',' :: rest) out row field false =
      parseCSVAux rest out (row ++ [String.mk field]) [] false := by
  rfl

theorem step_newline (rest : List Char) (out : List (List String)) (row : List String)
    (field : List Char) :
    parseCSVAux ('\n' :: rest) out row field false =
      parseCSVAux rest (flushRow out row field) [] [] false := by
  rfl

theorem step_accum (c : Char) (rest : List Char) (out : List (List String)) (row : List String)
    (field : List Char) (h1 : c ≠ '"') (h2 : c ≠ ',') (h3 : c ≠ '\t') (h4 : c ≠ '\r')
    (h5 : c ≠ '\n') :
    parseCSVAux (c :: rest) out row field false =
      parseCSVAux rest out row (field ++ [c]) false := by
  simp [parseCSVAux, h1, h2, h3, h4, h5]

theorem step_quoted (c : Char) (rest : List Char) (out : List (List String)) (row : List String)
    (field : List Char) (h1 : c ≠ '"') :
    parseCSVAux (c :: rest) out row field true =
      parseCSVAux rest out row (field ++ [c]) true := by
  simp [parseCSVAux, h1]

/-- Membership in a flushed output: either an old row or the just-emitted
(non-empty) row. -/
theorem mem_flushRow (out : List (List String)) (row : List String) (field : List Char)
    (r : List String) (h : r ∈ flushRow out row field) :
    r ∈ out ∨ r = row ++ [String.mk field] := by
  unfold flushRow at h
  split at h
  · rcases List.mem_append.1 h with h' | h'
    · exact Or.inl h'
    · exact Or.inr (List.mem_singleton.1 h')
  · exact Or.inl h

/-- Every row the parser loop ever appends has at least one cell. -/
theorem parseCSVAux_rows_ne_nil :
    ∀ (chars : List Char) (out : List (List String)) (row : List String) (field : List Char)
      (q : Bool), (∀ r ∈ out, r ≠ []) → ∀ r ∈ parseCSVAux chars out row field q, r ≠ [] := by
  intro chars out row field q
  induction chars, out, row, field, q using parseCSVAux.induct with
  | case1 out row field q =>
    intro hout r hr
    rw [show parseCSVAux [] out row field q = flushRow out row field from rfl] at hr
    rcases mem_flushRow out row field r hr with h | h
    · exact hout r h
    · simp [h]
  | case2 rest out row field ih =>
    intro hout r hr
    rw [show parseCSVAux ('"' :: '"' :: rest) out row field true
        = parseCSVAux rest out row (field ++ ['"']) true from rfl] at hr
    exact ih hout r hr
  | case3 rest out row field inQuotes hne ih =>
    intro hout r hr
    simp only [parseCSVAux] at hr
    exact ih hout r hr
  | case4 rest out row field ih =>
    intro hout r hr
    rw [show parseCSVAux ('\r' :: '\n' :: rest) out row field false
        = parseCSVAux rest (flushRow out row field) [] [] false from rfl] at hr
    refine ih ?_ r hr
    intro r' hr'
    rcases mem_flushRow out row field r' hr' with h | h
    · exact hout r' h
    · simp [h]
  | case5 c rest out row field h1 h2 h3 ih =>
    intro hout r hr
    simp only [parseCSVAux, h1, h2, h3, if_pos] at hr
    exact ih hout r hr
  | case6 c rest out row field h1 h2 h3 h4 ih =>
    intro hout r hr
    simp only [parseCSVAux, h1, h2, h3, h4] at hr
    refine ih ?_ r hr
    intro r' hr'
    rcases mem_flushRow out row field r' hr' with h | h
    · exact hout r' h
    · simp [h]
  | case7 c rest out row field h1 h2 h3 h4 ih =>
    intro hout r hr
    simp only [parseCSVAux, h1, h2, h3, h4] at hr
    exact ih hout r hr
  | case8 c rest out row field h1 h2 ih =>
    intro hout r hr
    simp only [parseCSVAux, h1, h2] at hr
    exact ih hout r hr

/-! ## Claim theorems: the CSV parser -/

/-- C5: inside a quoted region, a double-quote immediately followed by
another double-quote emits one literal quote into the current field and
advances past both characters; parsing `"he said ""hi"""` yields the single
field `he said "hi"`. -/
theorem claim_C5 :
    (∀ (rest : List Char) (out : List (List String)) (row : List String) (field : List Char),
        parseCSVAux ('"' :: '"' :: rest) out row field true =
          parseCSVAux rest out row (field ++ ['"']) true) ∧
    parseCSV "\"he said \"\"hi\"\"\"" = [["he said \"hi\""]] :=
  ⟨fun _ _ _ _ => rfl, by decide⟩

/-- C9: an unquoted line terminator reached with an empty current field and
an empty current row emits no row, so interior blank lines are suppressed;
in particular `parse "a\n\nb" = [["a"], ["b"]]`. -/
theorem claim_C9 :
    (∀ (rest : List Char) (out : List (List String)),
        parseCSVAux ('\n' :: rest) out [] [] false = parseCSVAux rest out [] [] false) ∧
    (∀ (rest : List Char) (out : List (List String)),
        parseCSVAux ('\r' :: '\n' :: rest) out [] [] false =
          parseCSVAux rest out [] [] false) ∧
    (∀ (rest : List Char) (out : List (List String)), rest.head? ≠ some '\n' →
        parseCSVAux ('\r' :: rest) out [] [] false = parseCSVAux rest out [] [] false) ∧
    parseCSV "a\n\nb" = [["a"], ["b"]] := by
  refine ⟨fun rest out => rfl, fun rest out => rfl, ?_, by decide⟩
  intro rest out h
  match rest, h with
  | [], _ => rfl
  | c :: t, h =>
    have hc : c ≠ '\n' := by
      intro hc
      exact h (by simp [hc])
    simp [parseCSVAux, hc, flushRow]

/-- C9 witness: the `'\r'` conjunct applied at a concrete input. -/
theorem claim_C9_witness :
    parseCSVAux ['\r', 'x'] [] [] [] false = parseCSVAux ['x'] [] [] [] false :=
  claim_C9.2.2.1 ['x'] [] (by decide)

/-- C8: the parser is total (its embedding is a terminating function) and on
an unterminated quote the whole remainder of the input accumulates as quoted
content of the current field, the end-of-input flush still applying; e.g.
`parse "a,\"b\nc" = [["a", "b\nc"]]`. -/
theorem claim_C8 :
    (∀ (rest : List Char) (out : List (List String)) (row : List String) (field : List Char),
        (∀ c ∈ rest, c ≠ '"') →
        parseCSVAux rest out row field true = flushRow out row (field ++ rest)) ∧
    parseCSV "a,\"b\nc" = [["a", "b\nc"]] := by
  constructor
  · intro rest
    induction rest with
    | nil => intro out row field _; simp [parseCSVAux]
    | cons c t ih =>
      intro out row field h
      have hc : c ≠ '"' := h c (List.mem_cons_self c t)
      rw [step_quoted c t out row field hc,
        ih out (row) (field ++ [c]) (fun x hx => h x (List.mem_cons_of_mem c hx))]
      simp
  · decide

/-- C8 witness: the unterminated-quote conjunct applied at a concrete
input. -/
theorem claim_C8_witness :
    parseCSVAux ['b', '\n', 'c'] [["a"]] ["x"] [] true = [["a"], ["x", "b\nc"]] := by
  rw [claim_C8.1 ['b', '\n', 'c'] [["a"]] ["x"] [] (by decide)]
  decide

/-- C10: every row the parser returns contains at least one cell. -/
theorem claim_C10 (text : String) : ∀ row ∈ parseCSV text, row ≠ [] :=
  parseCSVAux_rows_ne_nil text.data [] [] [] false (by simp)

/-- C10 witness: the invariant applied at a concrete input. -/
theorem claim_C10_witness : ["a"] ≠ ([] : List String) :=
  claim_C10 "a" ["a"] (by decide)

/-! ## Record construction -/

/-- The assignment fold behind `objGetOpt`, for an arbitrary accumulator. -/
theorem objGetOpt_foldl (name : String) :
    ∀ (rec : Record) (init : Option String),
      rec.foldl (fun acc p => if p.1 = name then some p.2 else acc) init =
        (match objGetOpt rec name with
         | some v => some v
         | none => init) := by
  intro rec
  induction rec with
  | nil => intro init; rfl
  | cons p rec ih =>
    intro init
    show List.foldl _ (if p.1 = name then some p.2 else init) rec = _
    rw [ih]
    have h2 : objGetOpt (p :: rec) name =
        (match objGetOpt rec name with
         | some v => some v
         | none => if p.1 = name then some p.2 else none) := by
      show List.foldl _ (if p.1 = name then some p.2 else none) rec = _
      rw [ih]
    rw [h2]
    cases objGetOpt rec name with
    | some v => rfl
    | none => by_cases hp : p.1 = name <;> simp [hp]

/-- Looking a name up in a built record reads the cell at the name's last
position among the headers. -/
theorem objGetOpt_buildRecordAux (r : List String) (name : String) :
    ∀ (head : List String) (i : Nat),
      objGetOpt (buildRecordAux r i head) name =
        (lastIdxOf? name head).map (fun j => r.getD (i + j) "") := by
  intro head
  induction head with
  | nil => intro i; rfl
  | cons h t ih =>
    intro i
    rw [show buildRecordAux r i (h :: t) = (h, r.getD i "") :: buildRecordAux r (i + 1) t
      from rfl]
    rw [show objGetOpt ((h, r.getD i "") :: buildRecordAux r (i + 1) t) name
        = List.foldl (fun acc p => if p.1 = name then some p.2 else acc)
            (if h = name then some (r.getD i "") else none) (buildRecordAux r (i + 1) t)
        from rfl]
    rw [objGetOpt_foldl, ih]
    cases hL : lastIdxOf? name t with
    | some j =>
      have : i + 1 + j = i + (j + 1) := by omega
      simp [lastIdxOf?, hL, this]
    | none => by_cases hp : h = name <;> simp [lastIdxOf?, hL, hp]

/-- If `lastIdxOf?` finds nothing, no in-range position holds the name. -/
theorem lastIdxOf?_eq_none (name : String) :
    ∀ (l : List String), lastIdxOf? name l = none →
      ∀ k, k < l.length → l.getD k "" ≠ name := by
  intro l
  induction l with
  | nil => intro _ k hk; simp at hk
  | cons h t ih =>
    intro hn k hk
    unfold lastIdxOf? at hn
    cases hL : lastIdxOf? name t with
    | some j => rw [hL] at hn; cases hn
    | none =>
      rw [hL] at hn
      by_cases hp : h = name
      · rw [if_pos hp] at hn; cases hn
      · match k with
        | 0 => simpa using hp
        | k' + 1 =>
          have := ih hL k' (by simpa using hk)
          simpa using this

/-- `lastIdxOf?` returns an in-range position holding the name, with no
later in-range position holding it. -/
theorem lastIdxOf?_spec (name : String) :
    ∀ (l : List String) (j : Nat), lastIdxOf? name l = some j →
      j < l.length ∧ l.getD j "" = name ∧
        ∀ k, j < k → k < l.length → l.getD k "" ≠ name := by
  intro l
  induction l with
  | nil => intro j h; cases h
  | cons h t ih =>
    intro j hj
    unfold lastIdxOf? at hj
    cases hL : lastIdxOf? name t with
    | some j' =>
      rw [hL] at hj
      obtain rfl : j' + 1 = j := by injection hj
      obtain ⟨hlt, heq, hafter⟩ := ih j' hL
      refine ⟨by simpa using hlt, by simpa using heq, ?_⟩
      intro k hk1 hk2
      match k, hk1 with
      | k' + 1, hk1 =>
        have : t.getD k' "" ≠ name := hafter k' (by omega) (by simpa using hk2)
        simpa using this
    | none =>
      rw [hL] at hj
      by_cases hp : h = name
      · rw [if_pos hp] at hj
        obtain rfl : 0 = j := by injection hj
        refine ⟨by simp, by simpa using hp, ?_⟩
        intro k hk1 hk2
        match k, hk1 with
        | k' + 1, _ =>
          have := lastIdxOf?_eq_none name t hL k' (by simpa using hk2)
          simpa using this
      · rw [if_neg hp] at hj
        cases hj

/-- C7: with duplicate header names, the record maps the name to the cell at
the last of its positions, and missing trailing cells read as the empty
string. -/
theorem claim_C7 :
    (∀ (head r : List String) (name : String) (j : Nat),
        lastIdxOf? name head = some j →
        getStr (buildRecord head r) name = r.getD j "") ∧
    (∀ (head : List String) (name : String) (j : Nat),
        lastIdxOf? name head = some j →
        j < head.length ∧ head.getD j "" = name ∧
          ∀ k, j < k → k < head.length → head.getD k "" ≠ name) ∧
    getStr (buildRecord ["name", "x", "name"] ["a", "b", "c"]) "name" = "c" ∧
    getStr (buildRecord ["a", "b"] ["1"]) "b" = "" := by
  refine ⟨?_, fun head name j hj => lastIdxOf?_spec name head j hj, by decide, by decide⟩
  intro head r name j hj
  unfold getStr buildRecord
  rw [objGetOpt_buildRecordAux r name head 0, hj]
  simp

/-- C7 witness: last-write-wins applied at a concrete duplicate header. -/
theorem claim_C7_witness :
    getStr (buildRecord ["a", "a"] ["1", "2"]) "a" = ["1", "2"].getD 1 "" :=
  claim_C7.1 ["a", "a"] ["1", "2"] "a" 1 (by decide)

/-! ## Column resolution -/

/-- `indexOfStr` returns the first in-range position holding the value. -/
theorem indexOfStr_spec :
    ∀ (l : List String) (x : String) (i : Nat),
      indexOfStr l x = some i →
      i < l.length ∧ l.getD i "" = x ∧ ∀ k, k < i → l.getD k "" ≠ x := by
  intro l
  induction l with
  | nil => intro x i h; cases h
  | cons h t ih =>
    intro x i hx
    unfold indexOfStr at hx
    by_cases hp : h = x
    · rw [if_pos hp] at hx
      obtain rfl : 0 = i := by injection hx
      exact ⟨by simp, by simpa using hp, fun k hk => absurd hk (by omega)⟩
    · rw [if_neg hp] at hx
      cases hI : indexOfStr t x with
      | none => rw [hI] at hx; cases hx
      | some j =>
        rw [hI] at hx
        simp only [Option.map_some'] at hx
        obtain rfl : j + 1 = i := by injection hx
        obtain ⟨h1, h2, h3⟩ := ih x j hI
        refine ⟨by simpa using h1, by simpa using h2, ?_⟩
        intro k hk
        match k with
        | 0 => simpa using hp
        | k' + 1 =>
          have := h3 k' (by omega)
          simpa using this

/-- C2 counterexample: the code compares the alias verbatim, not
lower-cased-trimmed as the claim states.  With header `"Std"` and alias
`"Std"`, the spec-worded walk (`specTryAliases`) binds `"Std"` but the
source's walk finds nothing, and the role ends up unresolved. -/
theorem claim_C2_counterexample :
    specTryAliases ["Std"] (["Std"].map lower) ["Std"] = some "Std" ∧
    tryAliases ["Std"] (["Std"].map lower) ["Std"] = none ∧
    resolveRole ["Std"] ["Std"] "class" = none := by
  decide

/-- C2 (amended): resolution walks the alias list in configured order,
compares each alias as configured (verbatim, not lower-cased or trimmed)
against the lower-cased-trimmed headers, binds the role to the original text
of the first header whose lower-cased-trimmed form equals the alias, and
stops at the first matching alias; with the all-lower-case default config,
headers `["Std","Section","RollNo"]` resolve class to `"Std"`, division to
`"Section"` and roll to `"RollNo"`. -/
theorem claim_C2 :
    (∀ (headers lowerH : List String) (cand : String) (rest : List String),
        indexOfStr lowerH cand = none →
        tryAliases headers lowerH (cand :: rest) = tryAliases headers lowerH rest) ∧
    (∀ (headers lowerH : List String) (cand : String) (rest : List String) (i : Nat),
        indexOfStr lowerH cand = some i →
        tryAliases headers lowerH (cand :: rest) = some (headers.getD i "")) ∧
    (∀ (l : List String) (x : String) (i : Nat),
        indexOfStr l x = some i →
        i < l.length ∧ l.getD i "" = x ∧ ∀ k, k < i → l.getD k "" ≠ x) ∧
    resolveColumns ["Std", "Section", "RollNo"] COLUMN_ALIASES =
      { «class» := some "Std", division := some "Section", roll := some "RollNo" } := by
  refine ⟨?_, ?_, indexOfStr_spec, by decide⟩
  · intro headers lowerH cand rest h
    simp [tryAliases, h]
  · intro headers lowerH cand rest i h
    simp [tryAliases, h]

/-- C2 witness: the first-match conjunct applied at a concrete input. -/
theorem claim_C2_witness :
    tryAliases ["Std"] ["std"] ["std", "x"] = some (["Std"].getD 0 "") :=
  claim_C2.2.1 ["Std"] ["std"] "std" ["x"] 0 (by decide)

/-- C3 counterexample: the fallback is guarded by JS truthiness, not by
"no alias matched".  With headers `["", "myclass"]` and alias list `[""]`,
the alias walk matches the first header (binding the empty string), yet the
substring fallback still runs and rebinds the role to `"myclass"`. -/
theorem claim_C3_counterexample :
    tryAliases ["", "myclass"] (["", "myclass"].map lower) [""] = some "" ∧
    resolveRole ["", "myclass"] [""] "class" = some "myclass" := by
  decide

/-- C3 (amended): the substring fallback runs if and only if the alias stage
produced a falsy binding (no alias matched, or the matched header's original
text is the empty string); when it runs it binds the role to the first
header, in header order, whose lower-cased-trimmed form contains the role
name as a substring, provided that header's text is non-empty; e.g. header
`"StudentClassName"` with no exact alias match binds the class role. -/
theorem claim_C3 :
    (∀ (headers aliases : List String) (key : String),
        truthy (tryAliases headers (headers.map lower) aliases) = true →
        resolveRole headers aliases key = tryAliases headers (headers.map lower) aliases) ∧
    (∀ (headers aliases : List String) (key m : String),
        truthy (tryAliases headers (headers.map lower) aliases) = false →
        headers.find? (fun h => includes (lower h) key) = some m → m ≠ "" →
        resolveRole headers aliases key = some m) ∧
    (∀ (headers : List String) (p : String → Bool) (m : String),
        headers.find? p = some m →
        p m = true ∧ ∃ pre post, headers = pre ++ m :: post ∧ ∀ h ∈ pre, p h = false) ∧
    resolveRole ["StudentClassName"] ["class", "std", "grade"] "class" =
      some "StudentClassName" := by
  refine ⟨?_, ?_, ?_, by decide⟩
  · intro headers aliases key h
    simp [resolveRole, h]
  · intro headers aliases key m h1 h2 h3
    have hb : (m != "") = true := by simpa [bne_iff_ne] using h3
    simp [resolveRole, h1, h2, hb]
  · intro headers p m h
    rw [List.find?_eq_some] at h
    obtain ⟨hp, as, bs, heq, hall⟩ := h
    exact ⟨hp, as, bs, heq, fun x hx => by simpa using hall x hx⟩

/-- C3 witness: the truthy-binding conjunct applied at a concrete input. -/
theorem claim_C3_witness :
    resolveRole ["std"] ["std"] "class" = tryAliases ["std"] (["std"].map lower) ["std"] :=
  claim_C3.1 ["std"] ["std"] "class" (by decide)

/-! ## Cascade filtering and lookup -/

/-- C1: on the three sample records the division and roll cascades and the
final lookup behave as stated, and in general `findRecord` returns the first
record in original order whose three role values equal the three selections
after trimming, under exact (case-sensitive) string equality. -/
theorem claim_C1 :
    divisionValues
        [[("class", "10"), ("div", "A"), ("roll", "1")],
         [("class", "10"), ("div", "B"), ("roll", "2")],
         [("class", "9"), ("div", "A"), ("roll", "1")]] "class" "div" "10" = ["A", "B"] ∧
    rollValues
        [[("class", "10"), ("div", "A"), ("roll", "1")],
         [("class", "10"), ("div", "B"), ("roll", "2")],
         [("class", "9"), ("div", "A"), ("roll", "1")]] "class" "div" "roll" "10" "A" =
      ["1"] ∧
    findRecord
        [[("class", "10"), ("div", "A"), ("roll", "1")],
         [("class", "10"), ("div", "B"), ("roll", "2")],
         [("class", "9"), ("div", "A"), ("roll", "1")]] "class" "div" "roll" "10" "B" "2" =
      some [("class", "10"), ("div", "B"), ("roll", "2")] ∧
    findRecord
        [[("class", "10"), ("div", "A"), ("roll", "1")],
         [("class", "10"), ("div", "B"), ("roll", "2")],
         [("class", "9"), ("div", "A"), ("roll", "1")]] "class" "div" "roll" "10" "A" "2" =
      none ∧
    (∀ (rows : List Record) (cCol dCol rCol cls dv rl : String) (rec : Record),
        findRecord rows cCol dCol rCol cls dv rl = some rec ↔
          (normalize (getStr rec cCol) = normalize cls ∧
           normalize (getStr rec dCol) = normalize dv ∧
           normalize (getStr rec rCol) = normalize rl) ∧
          ∃ pre post, rows = pre ++ rec :: post ∧
            ∀ x ∈ pre, ¬(normalize (getStr x cCol) = normalize cls ∧
                         normalize (getStr x dCol) = normalize dv ∧
                         normalize (getStr x rCol) = normalize rl)) := by
  refine ⟨by decide, by decide, by decide, by decide, ?_⟩
  intro rows cCol dCol rCol cls dv rl rec
  unfold findRecord
  rw [List.find?_eq_some]
  constructor
  · rintro ⟨hp, pre, post, heq, hall⟩
    simp only [matchesSelection, Bool.and_eq_true, beq_iff_eq] at hp
    refine ⟨by tauto, pre, post, heq, fun x hx => ?_⟩
    have h := hall x hx
    simp [matchesSelection] at h
    tauto
  · rintro ⟨hp, pre, post, heq, hall⟩
    refine ⟨?_, pre, post, heq, fun x hx => ?_⟩
    · simp only [matchesSelection, Bool.and_eq_true, beq_iff_eq]
      tauto
    · have h := hall x hx
      simp [matchesSelection]
      tauto

/-! ## The unique/sort pipeline -/

theorem dropWhile_idem (p : Char → Bool) (l : List Char) :
    (l.dropWhile p).dropWhile p = l.dropWhile p := by
  cases h : l.dropWhile p with
  | nil => rfl
  | cons a t =>
    have h0 := List.head?_dropWhile_not p l
    rw [h] at h0
    simp only [List.head?_cons] at h0
    rw [List.dropWhile_cons_of_neg (by simp [h0])]

theorem trimChars_idem (l : List Char) : trimChars (trimChars l) = trimChars l := by
  unfold trimChars
  set ws := Char.isWhitespace with hws
  set A := l.dropWhile ws with hA
  set B := A.reverse.dropWhile ws with hB
  have hstep1 : B.reverse.dropWhile ws = B.reverse := by
    obtain ⟨C, hC⟩ := List.dropWhile_suffix (l := A.reverse) ws
    cases hBr : B.reverse with
    | nil => rfl
    | cons a t =>
      have hA2 : A = B.reverse ++ C.reverse := by
        have h' : A.reverse = C ++ B := hC.symm
        rw [← List.reverse_reverse A, h', List.reverse_append]
      have hhead : A.head? = some a := by
        rw [hA2, hBr]
        rfl
      have h0 := List.head?_dropWhile_not ws l
      rw [← hA, hhead] at h0
      simp only at h0
      rw [hBr] at hBr ⊢
      rw [List.dropWhile_cons_of_neg (by simp [h0])]
  rw [hstep1, List.reverse_reverse, hB, dropWhile_idem]

theorem normalize_idem (s : String) : normalize (normalize s) = normalize s := by
  unfold normalize
  exact congrArg String.mk (trimChars_idem s.data)

theorem intOrd_ne_gt (a b : Int) : (intOrd a b ≠ Ordering.gt) ↔ a ≤ b := by
  unfold intOrd
  split_ifs with h1 h2 <;> simp <;> omega

theorem numValQ_eq_zpow (x : Int × Int) : numValQ x = (x.1 : ℚ) * (10 : ℚ) ^ (x.2 : ℤ) := by
  unfold numValQ
  split_ifs with h
  · rw [← zpow_natCast, Int.toNat_of_nonneg h]
  · push_neg at h
    rw [div_eq_mul_inv]
    congr 1
    rw [← zpow_natCast, Int.toNat_of_nonneg (by omega : (0 : Int) ≤ -x.2), ← zpow_neg, neg_neg]

theorem scaled_le_iff (x y : Int × Int) :
    (x.1 * 10 ^ (x.2 - min x.2 y.2).toNat ≤ y.1 * 10 ^ (y.2 - min x.2 y.2).toNat) ↔
      numValQ x ≤ numValQ y := by
  set e := min x.2 y.2 with he
  have hx : (0 : Int) ≤ x.2 - e := by omega
  have hy : (0 : Int) ≤ y.2 - e := by omega
  rw [← Int.cast_le (R := ℚ)]
  push_cast
  rw [show ((10 : ℚ) ^ (x.2 - e).toNat = (10 : ℚ) ^ ((x.2 - e) : ℤ)) by
      rw [← zpow_natCast, Int.toNat_of_nonneg hx],
    show ((10 : ℚ) ^ (y.2 - e).toNat = (10 : ℚ) ^ ((y.2 - e) : ℤ)) by
      rw [← zpow_natCast, Int.toNat_of_nonneg hy]]
  rw [numValQ_eq_zpow, numValQ_eq_zpow]
  rw [show (x.2 - e : ℤ) = x.2 + -e by ring, show (y.2 - e : ℤ) = y.2 + -e by ring,
    zpow_add₀ (by norm_num : (10 : ℚ) ≠ 0), zpow_add₀ (by norm_num : (10 : ℚ) ≠ 0),
    ← mul_assoc, ← mul_assoc]
  exact mul_le_mul_right (zpow_pos (by norm_num) _)

/-- On two strings that both parse as numbers the comparator is the numeric
comparison of their values. -/
theorem cmpJS_le_iff (a b : String) (x y : Int × Int) (ha : jsNumber a = some x)
    (hb : jsNumber b = some y) :
    (cmpJS a b ≠ Ordering.gt) ↔ numValQ x ≤ numValQ y := by
  unfold cmpJS
  rw [ha, hb]
  show intOrd _ _ ≠ Ordering.gt ↔ _
  rw [intOrd_ne_gt, scaled_le_iff]

theorem mem_insertSorted (a x : String) :
    ∀ (l : List String), x ∈ insertSorted a l ↔ x = a ∨ x ∈ l := by
  intro l
  induction l with
  | nil => simp [insertSorted]
  | cons b t ih =>
    unfold insertSorted
    split_ifs with h
    · simp [List.mem_cons]
    · simp only [List.mem_cons, ih]
      tauto

theorem insertSorted_perm (a : String) :
    ∀ (l : List String), (insertSorted a l).Perm (a :: l) := by
  intro l
  induction l with
  | nil => exact List.Perm.refl _
  | cons b t ih =>
    unfold insertSorted
    split_ifs with h
    · exact List.Perm.refl _
    · exact (List.Perm.cons b ih).trans (List.Perm.swap a b t)

theorem sortJS_perm : ∀ (l : List String), (sortJS l).Perm l := by
  intro l
  induction l with
  | nil => exact List.Perm.refl _
  | cons a t ih =>
    exact (insertSorted_perm a (sortJS t)).trans (List.Perm.cons a ih)

theorem insertSorted_pairwise :
    ∀ (l : List String) (a : String), (jsNumber a).isSome → (∀ v ∈ l, (jsNumber v).isSome) →
      l.Pairwise numLE → (insertSorted a l).Pairwise numLE := by
  intro l
  induction l with
  | nil => intro a _ _ _; simp [insertSorted, List.pairwise_cons]
  | cons b t ih =>
    intro a ha hall hp
    obtain ⟨xa, hxa⟩ := Option.isSome_iff_exists.1 ha
    obtain ⟨xb, hxb⟩ := Option.isSome_iff_exists.1 (hall b (List.mem_cons_self b t))
    rw [List.pairwise_cons] at hp
    unfold insertSorted
    split_ifs with hc
    · rw [List.pairwise_cons]
      refine ⟨?_, List.pairwise_cons.2 hp⟩
      intro y hy
      rcases List.mem_cons.1 hy with rfl | hyt
      · intro u w hu hw
        have hux : u = xa := Option.some.inj (hu.symm.trans hxa)
        have hwx : w = xb := Option.some.inj (hw.symm.trans hxb)
        rw [hux, hwx]
        exact (cmpJS_le_iff a y xa xb hxa hxb).1 hc
      · intro u w hu hw
        have hux : u = xa := Option.some.inj (hu.symm.trans hxa)
        have h1 : numValQ xa ≤ numValQ xb := (cmpJS_le_iff a b xa xb hxa hxb).1 hc
        have h2 : numValQ xb ≤ numValQ w := hp.1 y hyt xb w hxb hw
        rw [hux]
        exact le_trans h1 h2
    · rw [List.pairwise_cons]
      constructor
      · intro y hy
        rcases (mem_insertSorted a y t).1 hy with rfl | hyt
        · intro u w hu hw
          have hub : u = xb := Option.some.inj (hu.symm.trans hxb)
          have hwa : w = xa := Option.some.inj (hw.symm.trans hxa)
          rw [hub, hwa]
          have hnle : ¬ numValQ xa ≤ numValQ xb := fun hle =>
            hc ((cmpJS_le_iff y b xa xb hxa hxb).2 hle)
          exact le_of_lt (lt_of_not_le hnle)
        · exact hp.1 y hyt
      · exact ih a ha (fun v hv => hall v (List.mem_cons_of_mem b hv)) hp.2

theorem sortJS_pairwise :
    ∀ (l : List String), (∀ v ∈ l, (jsNumber v).isSome) → (sortJS l).Pairwise numLE := by
  intro l
  induction l with
  | nil => intro _; simp [sortJS]
  | cons a t ih =>
    intro hall
    refine insertSorted_pairwise (sortJS t) a (hall a (List.mem_cons_self a t)) ?_ ?_
    · intro v hv
      exact hall v (List.mem_cons_of_mem a ((sortJS_perm t).mem_iff.1 hv))
    · exact ih (fun v hv => hall v (List.mem_cons_of_mem a hv))

theorem jsSetDedupAux_mem :
    ∀ (l seen : List String) (x : String), x ∈ jsSetDedupAux seen l → x ∈ l := by
  intro l
  induction l with
  | nil => intro seen x h; cases h
  | cons y ys ih =>
    intro seen x h
    unfold jsSetDedupAux at h
    split_ifs at h with hy
    · exact List.mem_cons_of_mem y (ih seen x h)
    · rcases List.mem_cons.1 h with rfl | h'
      · exact List.mem_cons_self x ys
      · exact List.mem_cons_of_mem y (ih (y :: seen) x h')

theorem jsSetDedupAux_nodup :
    ∀ (l seen : List String),
      (jsSetDedupAux seen l).Nodup ∧ ∀ x ∈ jsSetDedupAux seen l, x ∉ seen := by
  intro l
  induction l with
  | nil => intro seen; simp [jsSetDedupAux]
  | cons y ys ih =>
    intro seen
    unfold jsSetDedupAux
    split_ifs with h
    · exact ih seen
    · obtain ⟨h1, h2⟩ := ih (y :: seen)
      constructor
      · refine List.nodup_cons.2 ⟨?_, h1⟩
        intro hy
        exact (h2 y hy) (List.mem_cons_self y seen)
      · intro x hx
        rcases List.mem_cons.1 hx with rfl | hx'
        · exact h
        · intro hseen
          exact (h2 x hx') (List.mem_cons_of_mem y hseen)

/-- C4: `uniqueSorted` trims every candidate, drops values empty after
trimming, de-duplicates, and sorts so that two values that both parse as
numbers compare by numeric value; `["10","2","1"]` sorts to
`["1","2","10"]`. -/
theorem claim_C4 :
    (∀ (values : List String),
        (uniqueSorted values).Perm
          (jsSetDedup ((values.map normalize).filter (fun v => v != "")))) ∧
    (∀ (values : List String) (v : String),
        v ∈ uniqueSorted values → normalize v = v ∧ v ≠ "") ∧
    (∀ (values : List String), (uniqueSorted values).Nodup) ∧
    (∀ (values : List String),
        (∀ v ∈ values, normalize v = "" ∨ (jsNumber (normalize v)).isSome) →
        (uniqueSorted values).Pairwise numLE) ∧
    uniqueSorted ["10", "2", "1"] = ["1", "2", "10"] := by
  have hmem : ∀ (values : List String) (v : String), v ∈ uniqueSorted values →
      (∃ u ∈ values, v = normalize u) ∧ v ≠ "" := by
    intro values v hv
    have h1 : v ∈ jsSetDedup ((values.map normalize).filter (fun v => v != "")) :=
      (sortJS_perm _).mem_iff.1 hv
    have h2 := jsSetDedupAux_mem _ [] v h1
    have h3 := List.mem_filter.1 h2
    obtain ⟨u, hu, rfl⟩ := List.mem_map.1 h3.1
    exact ⟨⟨u, hu, rfl⟩, by simpa [bne_iff_ne] using h3.2⟩
  refine ⟨fun values => sortJS_perm _, ?_, ?_, ?_, by decide⟩
  · intro values v hv
    obtain ⟨⟨u, _, rfl⟩, hne⟩ := hmem values v hv
    exact ⟨normalize_idem u, hne⟩
  · intro values
    exact ((sortJS_perm _).symm.nodup (jsSetDedupAux_nodup _ []).1)
  · intro values hnum
    refine sortJS_pairwise _ ?_
    intro v hv
    have h2 := jsSetDedupAux_mem _ [] v hv
    have h3 := List.mem_filter.1 h2
    obtain ⟨u, hu, rfl⟩ := List.mem_map.1 h3.1
    rcases hnum u hu with h | h
    · exact absurd h (by simpa [bne_iff_ne] using h3.2)
    · exact h

/-- C4 witness: the all-numeric sortedness conjunct applied at a concrete
input. -/
theorem claim_C4_witness : (uniqueSorted ["2", "10"]).Pairwise numLE :=
  claim_C4.2.2.2.1 ["2", "10"] (by decide)

/-! ## The CSV round trip -/

theorem intercalate_single (sep x : List Char) : List.intercalate sep [x] = x := by
  simp [List.intercalate]

theorem intercalate_cons₂ (sep x y : List Char) (xs : List (List Char)) :
    List.intercalate sep (x :: y :: xs) = x ++ sep ++ List.intercalate sep (y :: xs) := by
  simp [List.intercalate, List.intersperse_cons₂, List.append_assoc]

theorem intercalate_cons_ne_nil (sep x : List Char) (ys : List (List Char)) (h : ys ≠ []) :
    List.intercalate sep (x :: ys) = x ++ sep ++ List.intercalate sep ys := by
  cases ys with
  | nil => exact absurd rfl h
  | cons y ys' => exact intercalate_cons₂ sep x y ys'

/-- A run of plain characters accumulates into the current field. -/
theorem parse_cell (s : List Char) :
    ∀ (rest : List Char) (out : List (List String)) (row : List String) (field : List Char),
      (∀ c ∈ s, plainChar c) →
      parseCSVAux (s ++ rest) out row field false =
        parseCSVAux rest out row (field ++ s) false := by
  induction s with
  | nil => intro rest out row field _; simp
  | cons c t ih =>
    intro rest out row field h
    obtain ⟨h1, h2, h3, h4, h5⟩ := h c (List.mem_cons_self c t)
    rw [List.cons_append, step_accum c (t ++ rest) out row field h3 h1 h2 h4 h5,
      ih rest out row (field ++ [c]) (fun x hx => h x (List.mem_cons_of_mem c hx))]
    simp

/-- A comma-joined row of plain cells is consumed into row state: all but
the last cell are pushed, the last remains the pending field. -/
theorem parse_cells (cells : List (List Char)) :
    ∀ (last rest : List Char) (out : List (List String)) (row : List String),
      (∀ cl ∈ cells ++ [last], ∀ c ∈ cl, plainChar c) →
      parseCSVAux (List.intercalate [','] (cells ++ [last]) ++ rest) out row [] false =
        parseCSVAux rest out (row ++ cells.map String.mk) last false := by
  induction cells with
  | nil =>
    intro last rest out row h
    rw [List.nil_append, intercalate_single,
      parse_cell last rest out row [] (h last (List.mem_singleton.2 rfl))]
    simp
  | cons c cs ih =>
    intro last rest out row h
    have hne : cs ++ [last] ≠ [] := by simp
    rw [List.cons_append, intercalate_cons_ne_nil [','] c (cs ++ [last]) hne,
      List.append_assoc, List.append_assoc,
      parse_cell c ([','] ++ (List.intercalate [','] (cs ++ [last]) ++ rest)) out row []
        (h c (List.mem_cons_self c _))]
    simp only [List.nil_append]
    rw [show ([','] ++ (List.intercalate [','] (cs ++ [last]) ++ rest))
        = ',' :: (List.intercalate [','] (cs ++ [last]) ++ rest) from rfl,
      step_comma,
      ih last rest out (row ++ [String.mk c])
        (fun cl hcl => h cl (List.mem_cons_of_mem c hcl))]
    simp [List.append_assoc]

theorem map_mk_data (l : List String) : (l.map String.data).map String.mk = l := by
  induction l with
  | nil => rfl
  | cons s t ih => simp only [List.map_cons, ih]

/-- Parsing the serialized form of a matrix of plain, non-blank rows appends
exactly those rows to the output. -/
theorem parse_rows :
    ∀ (m : List (List String)) (out : List (List String)),
      (∀ row ∈ m, ∀ cell ∈ row, ∀ c ∈ cell.data, plainChar c) →
      (∀ row ∈ m, row ≠ [] ∧ row ≠ [""]) →
      parseCSVAux
          (List.intercalate ['\n']
            (m.map (fun r => List.intercalate [','] (r.map String.data))))
          out [] [] false = out ++ m := by
  intro m
  induction m with
  | nil => intro out _ _; simp [parseCSVAux, flushRow]
  | cons r m' ih =>
    intro out hplain hrow
    obtain ⟨hr_ne, hr_ne1⟩ := hrow r (List.mem_cons_self r m')
    have hr : r.dropLast ++ [r.getLast hr_ne] = r := List.dropLast_append_getLast hr_ne
    have hmap : r.map String.data =
        (r.dropLast.map String.data) ++ [(r.getLast hr_ne).data] := by
      conv_lhs => rw [← hr]
      simp
    have hcl : ∀ cl ∈ (r.dropLast.map String.data) ++ [(r.getLast hr_ne).data],
        ∀ c ∈ cl, plainChar c := by
      rw [← hmap]
      intro cl hclm
      obtain ⟨cell, hcell, rfl⟩ := List.mem_map.1 hclm
      exact hplain r (List.mem_cons_self r m') cell hcell
    have hflush : flushRow out r.dropLast (r.getLast hr_ne).data = out ++ [r] := by
      unfold flushRow
      rw [if_pos ?_]
      · rw [show String.mk (r.getLast hr_ne).data = r.getLast hr_ne from rfl, hr]
      · by_contra hcon
        push_neg at hcon
        obtain ⟨hfield, hdrop⟩ := hcon
        have hlast : r.getLast hr_ne = "" := by
          have : String.mk (r.getLast hr_ne).data = String.mk [] := by rw [hfield]
          simpa using this
        have : r = [""] := by
          rw [← hr, hdrop, hlast]
          rfl
        exact hr_ne1 this
    cases m' with
    | nil =>
      rw [List.map_cons, List.map_nil, intercalate_single, hmap,
        show List.intercalate [','] ((r.dropLast.map String.data) ++ [(r.getLast hr_ne).data])
          = List.intercalate [','] ((r.dropLast.map String.data)
              ++ [(r.getLast hr_ne).data]) ++ [] by simp,
        parse_cells (r.dropLast.map String.data) (r.getLast hr_ne).data [] out [] hcl]
      rw [show parseCSVAux [] out ([] ++ (r.dropLast.map String.data).map String.mk)
          (r.getLast hr_ne).data false
          = flushRow out ((r.dropLast.map String.data).map String.mk)
              (r.getLast hr_ne).data from rfl]
      rw [map_mk_data, hflush]
    | cons r2 m'' =>
      rw [List.map_cons, intercalate_cons_ne_nil ['\n'] _ _ (by simp), List.append_assoc,
        hmap,
        parse_cells (r.dropLast.map String.data) (r.getLast hr_ne).data _ out [] hcl]
      rw [show (['\n'] ++ List.intercalate ['\n']
            ((r2 :: m'').map (fun r => List.intercalate [','] (r.map String.data))))
          = '\n' :: List.intercalate ['\n']
            ((r2 :: m'').map (fun r => List.intercalate [','] (r.map String.data))) from rfl,
        step_newline]
      rw [List.nil_append, map_mk_data, hflush,
        ih (out ++ [r]) (fun row hrw => hplain row (List.mem_cons_of_mem r hrw))
          (fun row hrw => hrow row (List.mem_cons_of_mem r hrw))]
      simp

/-- C6 counterexample: the matrix `[[""]]` has no delimiter characters in
its single cell, yet it serializes to the empty text, whose parse is the
empty matrix — blank-line suppression breaks the round trip as claimed. -/
theorem claim_C6_counterexample : parseCSV (serialize [[""]]) ≠ [[""]] := by
  decide

/-- C6 (amended): for every matrix of strings whose cells contain no comma,
tab, double-quote, carriage-return or line-feed characters, and whose every
row is non-empty and not the single empty cell `[""]` (such a row serializes
to a blank line, which the parser suppresses), parsing the comma-and-newline
serialization returns the original matrix. -/
theorem claim_C6 (m : List (List String))
    (hplain : ∀ row ∈ m, ∀ cell ∈ row, ∀ c ∈ cell.data, plainChar c)
    (hrow : ∀ row ∈ m, row ≠ [] ∧ row ≠ [""]) :
    parseCSV (serialize m) = m := by
  unfold parseCSV serialize
  rw [show (String.mk (List.intercalate ['\n']
        (m.map (fun r => List.intercalate [','] (r.map String.data))))).data
      = List.intercalate ['\n']
        (m.map (fun r => List.intercalate [','] (r.map String.data))) from rfl]
  rw [parse_rows m [] hplain hrow]
  rfl

/-- C6 witness: the round trip applied at a concrete two-row matrix. -/
theorem claim_C6_witness : parseCSV (serialize [["a", "b"], ["c", ""]]) = [["a", "b"], ["c", ""]] :=
  claim_C6 [["a", "b"], ["c", ""]] (by decide) (by decide)

end StudentPortal
